import Mathlib

/-!
Verification of the go-kit string service (src/main.go).

The service operates on Go strings. Every string reaching the service is
produced by JSON decoding, hence valid UTF-8, so a Go string is modelled as
its sequence of Unicode code points (runes), together with an explicit UTF-8
encoding function that recovers the underlying byte sequence. Byte-level
primitives of the source — the built-in len(s) used by Count, and the byte
slice s[:l] used by Truncate — are modelled through that encoding, so they
keep their byte semantics and are not silently turned into code-point
operations.
-/

/-- A Go string: its sequence of Unicode code points (runes). -/
abbrev GoStr := List Char

/-- A raw Go byte string, as produced by byte slicing. -/
abbrev GoBytes := List Nat

/-- UTF-8 encoding of a single code point, the standard 1-4 byte layout used
by Go strings. -/
def utf8Encode (c : Char) : List Nat :=
  let u := c.toNat
  if u < 128 then [u]
  else if u < 2048 then [192 + u / 64, 128 + u % 64]
  else if u < 65536 then [224 + u / 4096, 128 + u / 64 % 64, 128 + u % 64]
  else [240 + u / 262144, 128 + u / 4096 % 64, 128 + u / 64 % 64, 128 + u % 64]

/-- The UTF-8 byte sequence underlying a Go string. -/
def utf8Bytes (s : GoStr) : GoBytes :=
  (s.map utf8Encode).flatten

/-- The Go built-in len(s): the number of bytes of the string. -/
def golen (s : GoStr) : Nat :=
  (utf8Bytes s).length

/-- The one business error of the service. -/
inductive GoErr where
  | errEmpty
deriving DecidableEq

/-- The message carried by the error, as err.Error() returns it. -/
def GoErr.message : GoErr → String
  | .errEmpty => "empty string"

/-- ErrEmpty is returned when an input string is empty
(src/main.go line 204). -/
def ErrEmpty : GoErr := .errEmpty

/-- ASCII case mapping: the effect of unicode.ToUpper on code points below
0x80, exactly as Go computes it there (r - ('a' - 'A')). Code points at or
above 0x80 are left unchanged by this model; every claim about Uppercase on
non-empty input quantifies only over ASCII strings, where the model is exact. -/
def toUpperRune (c : Char) : Char :=
  if 97 ≤ c.toNat ∧ c.toNat ≤ 122 then Char.ofNat (c.toNat - 32) else c

/-- Outcome of Truncate: either the underlying slice expression panics
(slice bounds out of range), or the method returns a (value, error) pair. -/
inductive TruncResult where
  | panicked
  | returned (v : GoBytes) (err : Option GoErr)
deriving DecidableEq

namespace stringService

/-- stringService.Uppercase (src/main.go lines 26-31): empty input returns
("", ErrEmpty); otherwise strings.ToUpper maps the case mapping over the
runes of s. -/
def Uppercase (s : GoStr) : GoStr × Option GoErr :=
  if s = [] then ([], some ErrEmpty)
  else (s.map toUpperRune, none)

/-- stringService.Count (src/main.go lines 33-35): return len(s), the byte
length of the string, as a Go int. -/
def Count (s : GoStr) : Int :=
  (golen s : Int)

/-- The in-place two-pointer swap loop of Reverse (src/main.go line 43):
for i, j := 0, len(r)-1; i < len(r)/2; i, j = i+1, j-1 { r[i], r[j] = r[j], r[i] }.
The argument i is the loop index; j is always r.size - 1 - i. -/
def revLoop (r : Array Char) (i : Nat) : Array Char :=
  if h : i < r.size / 2 then
    have hi : i < r.size := Nat.lt_of_lt_of_le h (Nat.div_le_self _ _)
    have hj : r.size - 1 - i < r.size := by omega
    revLoop (r.swap ⟨i, hi⟩ ⟨r.size - 1 - i, hj⟩) (i + 1)
  else r
termination_by r.size / 2 - i
decreasing_by simp only [Array.size_swap]; omega

/-- stringService.Reverse (src/main.go lines 37-47): empty input returns
("", ErrEmpty); otherwise convert to a rune slice, run the swap loop, and
convert back to a string. -/
def Reverse (s : GoStr) : GoStr × Option GoErr :=
  if s = [] then ([], some ErrEmpty)
  else ((revLoop s.toArray 0).toList, none)

/-- stringService.Truncate (src/main.go lines 49-57): empty input returns
("", ErrEmpty); otherwise evaluate s[:l], a byte slice that panics when l is
negative or exceeds len(s), with no validation of l. -/
def Truncate (s : GoStr) (l : Int) : TruncResult :=
  if s = [] then .returned [] (some ErrEmpty)
  else if 0 ≤ l ∧ l ≤ (golen s : Int) then .returned ((utf8Bytes s).take l.toNat) none
  else .panicked

end stringService

/-- Decoded request body of /uppercase, /count and /reverse
(src/main.go lines 175-177). -/
structure stringRequest where
  s : GoStr
deriving DecidableEq

/-- Response envelope of /uppercase, also reused by the reverse endpoint
(src/main.go lines 179-182). -/
structure uppercaseResponse where
  v : GoStr
  err : String
deriving DecidableEq

/-- Response envelope of /count (src/main.go lines 184-186). -/
structure countResponse where
  v : Int
deriving DecidableEq

/-- Decoded request body of /truncate (src/main.go lines 193-196). -/
structure truncateRequest where
  s : GoStr
  l : Int
deriving DecidableEq

/-- Response envelope of /reverse, declared in the source but never used:
the reverse endpoint builds an uppercaseResponse (src/main.go lines 188-191). -/
structure reverseResponse where
  v : GoStr
  err : String
deriving DecidableEq

/-- Response envelope of /truncate (src/main.go lines 198-201). Its value is
a raw byte string: the slice s[:l] need not fall on a rune boundary. -/
structure truncateResponse where
  v : GoBytes
  err : String
deriving DecidableEq

/-- Outcome of invoking an endpoint adapter on a decoded request: either a
panic raised by the operation escapes the adapter, or the adapter returns a
response envelope together with its Go error result (the transport-level
error, modelled by the message it would carry). -/
inductive EndpointResult (ρ : Type) where
  | panicked
  | returned (resp : ρ) (err : Option String)
deriving DecidableEq

/-- The endpoint returned by makeUppercaseEndpoint (src/main.go lines
98-107), applied to a decoded stringRequest: invoke Uppercase; on error,
envelope the fallback value and the error message; on success, envelope the
result and an empty message; the adapter itself always returns a nil error. -/
def makeUppercaseEndpoint (req : stringRequest) : EndpointResult uppercaseResponse :=
  match stringService.Uppercase req.s with
  | (v, some e) => .returned ⟨v, e.message⟩ none
  | (v, none) => .returned ⟨v, ""⟩ none

/-- The endpoint returned by makeCountEndpoint (src/main.go lines 109-115),
applied to a decoded stringRequest: invoke Count and envelope the integer. -/
def makeCountEndpoint (req : stringRequest) : EndpointResult countResponse :=
  .returned ⟨stringService.Count req.s⟩ none

/-- The endpoint returned by makeReverseEndpoint (src/main.go lines
117-126), applied to a decoded stringRequest; note it builds an
uppercaseResponse, as the source does. -/
def makeReverseEndpoint (req : stringRequest) : EndpointResult uppercaseResponse :=
  match stringService.Reverse req.s with
  | (v, some e) => .returned ⟨v, e.message⟩ none
  | (v, none) => .returned ⟨v, ""⟩ none

/-- The endpoint returned by makeTruncateEndpoint (src/main.go lines
128-137), applied to a decoded truncateRequest: a panic in Truncate
propagates out of the adapter; a returned (v, err) pair is enveloped as in
the other adapters. -/
def makeTruncateEndpoint (req : truncateRequest) : EndpointResult truncateResponse :=
  match stringService.Truncate req.s req.l with
  | .panicked => .panicked
  | .returned v (some e) => .returned ⟨v, e.message⟩ none
  | .returned v none => .returned ⟨v, ""⟩ none

/-! ## Helper lemmas about the embedding -/

theorem size_revLoop (r : Array Char) (i : Nat) :
    (stringService.revLoop r i).size = r.size := by
  rw [stringService.revLoop]
  split
  · rw [size_revLoop]
    exact Array.size_swap ..
  · rfl
termination_by r.size / 2 - i
decreasing_by simp only [Array.size_swap]; omega

theorem getElem?_swapChar (a : Array Char) (i j : Fin a.size) (k : Nat) :
    (a.swap i j)[k]? = if k = i.1 then a[j.1]? else if k = j.1 then a[i.1]? else a[k]? := by
  by_cases hk : k < a.size
  · have hk2 : k < (a.swap i j).size := by rw [Array.size_swap]; exact hk
    rw [Array.getElem?_eq_getElem hk2, Array.getElem_swap]
    split
    next h =>
      rw [Array.getElem?_eq_getElem j.2]
      rfl
    next h =>
      split
      next h2 =>
        rw [Array.getElem?_eq_getElem i.2]
        rfl
      next h2 =>
        rw [Array.getElem?_eq_getElem hk]
  · have h1 : k ≠ i.1 := by have := i.2; omega
    have h2 : k ≠ j.1 := by have := j.2; omega
    rw [if_neg h1, if_neg h2, Array.getElem?_ge a (by omega),
      Array.getElem?_ge (a.swap i j) (by rw [Array.size_swap]; omega)]

theorem getElem?_revLoop (r : Array Char) (i k : Nat) :
    (stringService.revLoop r i)[k]? =
      if i ≤ k ∧ k < r.size - i then r[r.size - 1 - k]? else r[k]? := by
  rw [stringService.revLoop]
  split
  next h =>
    have hi : i < r.size := Nat.lt_of_lt_of_le h (Nat.div_le_self _ _)
    have hj : r.size - 1 - i < r.size := by omega
    rw [getElem?_revLoop _ (i + 1) k]
    simp only [Array.size_swap, getElem?_swapChar]
    split
    next h2 =>
      by_cases e1 : r.size - 1 - k = i
      · rw [if_pos e1, if_pos (by omega : i ≤ k ∧ k < r.size - i)]
        congr 1
        omega
      · rw [if_neg e1]
        by_cases e2 : r.size - 1 - k = r.size - 1 - i
        · omega
        · rw [if_neg e2, if_pos (by omega : i ≤ k ∧ k < r.size - i)]
    next h2 =>
      by_cases e1 : k = i
      · rw [if_pos e1, if_pos (by omega : i ≤ k ∧ k < r.size - i)]
        congr 1
        omega
      · rw [if_neg e1]
        by_cases e2 : k = r.size - 1 - i
        · rw [if_pos e2, if_pos (by omega : i ≤ k ∧ k < r.size - i)]
          congr 1
          omega
        · rw [if_neg e2, if_neg (by omega : ¬(i ≤ k ∧ k < r.size - i))]
  next h =>
    split
    next h2 =>
      congr 1
      omega
    · rfl
termination_by r.size / 2 - i
decreasing_by simp only [Array.size_swap]; omega

theorem revLoop_toList (r : Array Char) :
    (stringService.revLoop r 0).toList = r.toList.reverse := by
  apply List.ext_getElem?
  intro n
  show (stringService.revLoop r 0)[n]? = _
  rw [getElem?_revLoop]
  by_cases hn : n < r.size
  · rw [if_pos (by omega), List.getElem?_reverse (by rw [Array.length_toList]; exact hn)]
    rw [Array.length_toList]
    rfl
  · rw [if_neg (by omega), Array.getElem?_ge r (by omega)]
    have h2 : r.toList.reverse.length ≤ n := by
      rw [List.length_reverse, Array.length_toList]; omega
    exact (List.getElem?_eq_none h2).symm ▸ (List.getElem?_eq_none h2).symm

/-- On a non-empty string, Reverse returns the reversed rune sequence with a
nil error. -/
theorem Reverse_eq (s : GoStr) (hs : s ≠ []) :
    stringService.Reverse s = (s.reverse, none) := by
  rw [stringService.Reverse, if_neg hs, revLoop_toList, Array.toList_toArray]

theorem one_le_length_utf8Encode (c : Char) : 1 ≤ (utf8Encode c).length := by
  rw [utf8Encode]
  split
  · simp
  · split
    · simp
    · split
      · simp
      · simp

theorem length_utf8Encode (c : Char) : (utf8Encode c).length = c.utf8Size := by
  rw [utf8Encode, Char.utf8Size]
  split
  next h =>
    have h1 : c.toNat < 128 := h
    rw [if_pos (show c.val ≤ UInt32.ofNatCore 127 Char.utf8Size.proof_1 from
      show c.toNat ≤ 127 by omega)]
    rfl
  next h =>
    have h1 : ¬ c.toNat < 128 := h
    rw [if_neg (show ¬ c.val ≤ UInt32.ofNatCore 127 Char.utf8Size.proof_1 from
      show ¬ c.toNat ≤ 127 by omega)]
    split
    next h2 =>
      have h3 : c.toNat < 2048 := h2
      rw [if_pos (show c.val ≤ UInt32.ofNatCore 2047 Char.utf8Size.proof_2 from
        show c.toNat ≤ 2047 by omega)]
      rfl
    next h2 =>
      have h3 : ¬ c.toNat < 2048 := h2
      rw [if_neg (show ¬ c.val ≤ UInt32.ofNatCore 2047 Char.utf8Size.proof_2 from
        show ¬ c.toNat ≤ 2047 by omega)]
      split
      next h4 =>
        have h5 : c.toNat < 65536 := h4
        rw [if_pos (show c.val ≤ UInt32.ofNatCore 65535 Char.utf8Size.proof_3 from
          show c.toNat ≤ 65535 by omega)]
        rfl
      next h4 =>
        have h5 : ¬ c.toNat < 65536 := h4
        rw [if_neg (show ¬ c.val ≤ UInt32.ofNatCore 65535 Char.utf8Size.proof_3 from
          show ¬ c.toNat ≤ 65535 by omega)]
        rfl

theorem utf8Bytes_append (a b : GoStr) :
    utf8Bytes (a ++ b) = utf8Bytes a ++ utf8Bytes b := by
  simp [utf8Bytes]

theorem golen_append (a b : GoStr) : golen (a ++ b) = golen a + golen b := by
  simp [golen, utf8Bytes_append]

theorem golen_eq_sum_utf8Size (s : GoStr) :
    golen s = (s.map Char.utf8Size).sum := by
  induction s with
  | nil => rfl
  | cons c t ih =>
    simp only [golen, utf8Bytes, List.map_cons, List.flatten_cons, List.length_append,
      List.map_cons, List.sum_cons] at ih ⊢
    rw [length_utf8Encode, ih]

theorem length_le_golen (s : GoStr) : s.length ≤ golen s := by
  induction s with
  | nil => simp [golen, utf8Bytes]
  | cons c t ih =>
    have h1 := one_le_length_utf8Encode c
    simp only [golen, utf8Bytes, List.map_cons, List.flatten_cons, List.length_append,
      List.length_cons] at ih ⊢
    omega

theorem toNat_charOfNat (n : Nat) (h : n < 55296) : (Char.ofNat n).toNat = n := by
  have hv : n.isValidChar := Or.inl h
  simp only [Char.ofNat, hv, dif_pos, Char.ofNatAux, Char.toNat]
  simp [UInt32.toNat, BitVec.toNat_ofNatLt]

theorem toNat_toUpperRune (c : Char) :
    (toUpperRune c).toNat =
      if 97 ≤ c.toNat ∧ c.toNat ≤ 122 then c.toNat - 32 else c.toNat := by
  rw [toUpperRune]
  split
  next h => rw [toNat_charOfNat _ (by omega)]
  next h => rfl

theorem toUpperRune_not_lower (c : Char) :
    ¬ (97 ≤ (toUpperRune c).toNat ∧ (toUpperRune c).toNat ≤ 122) := by
  rw [toNat_toUpperRune]
  split
  next h => omega
  next h => omega

theorem toUpperRune_idem (c : Char) : toUpperRune (toUpperRune c) = toUpperRune c := by
  have h := toUpperRune_not_lower c
  rw [toUpperRune, if_neg h]

theorem map_toUpperRune_idem (s : List Char) :
    (s.map toUpperRune).map toUpperRune = s.map toUpperRune := by
  rw [List.map_map]
  exact List.map_congr_left (fun c _ => toUpperRune_idem c)

/-! ## Claims -/

/-- C1, counterexample: Count does not return the number of code points; on
the one-rune string "é" it returns 2 (the byte length), not 1. -/
theorem count_codepoints_cex :
    stringService.Count ['é'] ≠ ((['é'] : GoStr).length : Int) := by decide

/-- C1, amended: for every string s, Count(s) returns the number of bytes of
the UTF-8 encoding of s (the sum of the UTF-8 sizes of its code points); in
particular Count("") returns 0, and Count is total, so it never fails. -/
theorem count_is_utf8_byte_length (s : GoStr) :
    stringService.Count s = ((s.map Char.utf8Size).sum : Int) ∧
      stringService.Count [] = 0 := by
  constructor
  · rw [stringService.Count, golen_eq_sum_utf8Size]
  · rfl

/-- C2: for every non-empty string s and every integer l with l negative or
l exceeding len(s), the length of s, Truncate(s, l) does not return a value:
the unguarded slice s[:l] panics with a bounds failure. -/
theorem truncate_out_of_range_panics (s : GoStr) (l : Int) (hs : s ≠ [])
    (hl : l < 0 ∨ (golen s : Int) < l) :
    stringService.Truncate s l = .panicked := by
  rw [stringService.Truncate, if_neg hs,
    if_neg (show ¬ (0 ≤ l ∧ l ≤ (golen s : Int)) by omega)]

/-- C2, witness at s = "a", l = 2. -/
theorem truncate_out_of_range_panics_witness :
    stringService.Truncate ['a'] 2 = .panicked :=
  truncate_out_of_range_panics ['a'] 2 (by decide) (Or.inr (by decide))

/-- C3, counterexample: on s = "é" (one character, two bytes) and l = 1,
Truncate slices one raw byte, which is not the first 1 characters of s. -/
theorem truncate_char_boundary_cex :
    ¬ (stringService.Truncate ['é'] 1 =
      .returned (utf8Bytes (List.take (1 : Int).toNat ['é'])) none) := by decide

/-- C3, amended: for every non-empty string s and every integer l with
0 <= l <= character count of s, Truncate(s, l) returns the first l bytes of
s (raw bytes, not character boundaries). -/
theorem truncate_returns_byte_prefix (s : GoStr) (l : Int) (hs : s ≠ [])
    (h0 : 0 ≤ l) (hl : l ≤ (s.length : Int)) :
    stringService.Truncate s l = .returned ((utf8Bytes s).take l.toNat) none := by
  have h2 : (s.length : Int) ≤ (golen s : Int) := by
    exact_mod_cast length_le_golen s
  rw [stringService.Truncate, if_neg hs, if_pos ⟨h0, le_trans hl h2⟩]

/-- C3, witness at s = "ab", l = 1. -/
theorem truncate_returns_byte_prefix_witness :
    stringService.Truncate ['a','b'] 1 =
      .returned ((utf8Bytes ['a','b']).take (1 : Int).toNat) none :=
  truncate_returns_byte_prefix ['a','b'] 1 (by decide) (by decide) (by decide)

/-- C4: for every non-empty string s, Reverse(s) succeeds with some value t,
and Reverse(t) succeeds with s: Reverse is an involution on non-empty
strings. -/
theorem reverse_involution (s : GoStr) (hs : s ≠ []) :
    ∃ t, stringService.Reverse s = (t, none) ∧
      stringService.Reverse t = (s, none) := by
  refine ⟨s.reverse, Reverse_eq s hs, ?_⟩
  rw [Reverse_eq s.reverse (by simpa using hs), List.reverse_reverse]

/-- C4, witness at s = "ab". -/
theorem reverse_involution_witness :
    ∃ t, stringService.Reverse ['a','b'] = (t, none) ∧
      stringService.Reverse t = (['a','b'], none) :=
  reverse_involution ['a','b'] (by decide)

/-- C5: Uppercase(""), Reverse("") and Truncate("", l) for every integer l
each fail with the business error ErrEmpty, whose message is "empty string",
and the corresponding endpoint envelopes are all (v = "", err = "empty
string") with a nil transport error. -/
theorem empty_input_business_error :
    stringService.Uppercase [] = ([], some ErrEmpty) ∧
    stringService.Reverse [] = ([], some ErrEmpty) ∧
    (∀ l : Int, stringService.Truncate [] l = .returned [] (some ErrEmpty)) ∧
    ErrEmpty.message = "empty string" ∧
    makeUppercaseEndpoint ⟨[]⟩ = .returned ⟨[], "empty string"⟩ none ∧
    makeReverseEndpoint ⟨[]⟩ = .returned ⟨[], "empty string"⟩ none ∧
    (∀ l : Int, makeTruncateEndpoint ⟨[], l⟩ = .returned ⟨[], "empty string"⟩ none) :=
  ⟨rfl, rfl, fun _ => rfl, rfl, rfl, rfl, fun _ => rfl⟩

/-- C6: for every non-empty string s, Truncate(s, len(s)) returns all of s
as a success, and Truncate(s, 0) returns the empty string as a success. -/
theorem truncate_full_and_zero (s : GoStr) (hs : s ≠ []) :
    stringService.Truncate s (golen s : Int) = .returned (utf8Bytes s) none ∧
    stringService.Truncate s 0 = .returned [] none := by
  constructor
  · rw [stringService.Truncate, if_neg hs,
      if_pos ⟨Int.ofNat_nonneg _, le_refl _⟩]
    congr 1
    rw [Int.toNat_natCast]
    exact List.take_length _
  · rw [stringService.Truncate, if_neg hs,
      if_pos ⟨le_refl _, Int.ofNat_nonneg _⟩]
    rfl

/-- C6, witness at s = "ab". -/
theorem truncate_full_and_zero_witness :
    stringService.Truncate ['a','b'] (golen ['a','b'] : Int) =
      .returned (utf8Bytes ['a','b']) none ∧
    stringService.Truncate ['a','b'] 0 = .returned [] none :=
  truncate_full_and_zero ['a','b'] (by decide)

/-- C7: for every non-empty ASCII string s, Uppercase(s) succeeds with a
value v, v contains no lowercase letters, and Uppercase(v) succeeds with v
again: Uppercase is idempotent on ASCII strings. -/
theorem uppercase_ascii_no_lower_idem (s : GoStr) (hs : s ≠ [])
    (hascii : ∀ c ∈ s, c.toNat < 128) :
    ∃ v, stringService.Uppercase s = (v, none) ∧
      (∀ c ∈ v, ¬ (97 ≤ c.toNat ∧ c.toNat ≤ 122)) ∧
      stringService.Uppercase v = (v, none) := by
  refine ⟨s.map toUpperRune, ?_, ?_, ?_⟩
  · rw [stringService.Uppercase, if_neg hs]
  · intro c hc
    rcases List.mem_map.mp hc with ⟨a, _, rfl⟩
    exact toUpperRune_not_lower a
  · rw [stringService.Uppercase,
      if_neg (show ¬ s.map toUpperRune = [] by simpa using hs),
      map_toUpperRune_idem]

/-- C7, witness at s = "ab". -/
theorem uppercase_ascii_no_lower_idem_witness :
    ∃ v, stringService.Uppercase ['a','b'] = (v, none) ∧
      (∀ c ∈ v, ¬ (97 ≤ c.toNat ∧ c.toNat ≤ 122)) ∧
      stringService.Uppercase v = (v, none) :=
  uppercase_ascii_no_lower_idem ['a','b'] (by decide) (by decide)

/-- C8, counterexample: on the decoded request (s = "a", l = 2) the Truncate
operation panics inside the adapter, so the truncate endpoint adapter does
not return a response envelope at all. -/
theorem truncate_adapter_panics_cex :
    makeTruncateEndpoint ⟨['a'], 2⟩ = .panicked ∧
      ¬ ∃ r, makeTruncateEndpoint ⟨['a'], 2⟩ = .returned r none := by
  refine ⟨by decide, ?_⟩
  rintro ⟨r, hr⟩
  rw [show makeTruncateEndpoint ⟨['a'], 2⟩ = .panicked from by decide] at hr
  exact EndpointResult.noConfusion hr

/-- C8, amended: whenever the underlying operation returns rather than
panics (always, for uppercase, count and reverse; for truncate, whenever s
is empty or 0 <= l <= len(s)), the endpoint adapter returns a response
envelope with a nil transport-level error: on operation failure the envelope
carries the fallback empty string and the failure's message, and on success
it carries the result and an empty err field. -/
theorem adapters_return_envelopes :
    (∀ req : stringRequest, ∃ r, makeUppercaseEndpoint req = .returned r none ∧
      ((req.s = [] ∧ r.v = [] ∧ r.err = "empty string") ∨
        (req.s ≠ [] ∧ r.v = (stringService.Uppercase req.s).1 ∧ r.err = ""))) ∧
    (∀ req : stringRequest,
      makeCountEndpoint req = .returned ⟨stringService.Count req.s⟩ none) ∧
    (∀ req : stringRequest, ∃ r, makeReverseEndpoint req = .returned r none ∧
      ((req.s = [] ∧ r.v = [] ∧ r.err = "empty string") ∨
        (req.s ≠ [] ∧ r.v = (stringService.Reverse req.s).1 ∧ r.err = ""))) ∧
    (∀ req : truncateRequest,
      (req.s = [] ∨ (0 ≤ req.l ∧ req.l ≤ (golen req.s : Int))) →
      ∃ r, makeTruncateEndpoint req = .returned r none ∧
        ((req.s = [] ∧ r.v = [] ∧ r.err = "empty string") ∨
          (req.s ≠ [] ∧
            stringService.Truncate req.s req.l = .returned r.v none ∧
            r.err = ""))) := by
  refine ⟨?_, fun req => rfl, ?_, ?_⟩
  · intro req
    by_cases h : req.s = []
    · refine ⟨⟨[], "empty string"⟩, ?_, Or.inl ⟨h, rfl, rfl⟩⟩
      rw [makeUppercaseEndpoint, stringService.Uppercase, if_pos h]
      rfl
    · refine ⟨⟨req.s.map toUpperRune, ""⟩, ?_, Or.inr ⟨h, ?_, rfl⟩⟩
      · rw [makeUppercaseEndpoint, stringService.Uppercase, if_neg h]
      · rw [stringService.Uppercase, if_neg h]
  · intro req
    by_cases h : req.s = []
    · refine ⟨⟨[], "empty string"⟩, ?_, Or.inl ⟨h, rfl, rfl⟩⟩
      rw [makeReverseEndpoint, stringService.Reverse, if_pos h]
      rfl
    · refine ⟨⟨req.s.reverse, ""⟩, ?_, Or.inr ⟨h, ?_, rfl⟩⟩
      · rw [makeReverseEndpoint, Reverse_eq req.s h]
      · rw [Reverse_eq req.s h]
  · intro req hreq
    by_cases h : req.s = []
    · refine ⟨⟨[], "empty string"⟩, ?_, Or.inl ⟨h, rfl, rfl⟩⟩
      rw [makeTruncateEndpoint, stringService.Truncate, if_pos h]
      rfl
    · have hb : 0 ≤ req.l ∧ req.l ≤ (golen req.s : Int) := by tauto
      refine ⟨⟨(utf8Bytes req.s).take req.l.toNat, ""⟩, ?_, Or.inr ⟨h, ?_, rfl⟩⟩
      · rw [makeTruncateEndpoint, stringService.Truncate, if_neg h, if_pos hb]
      · rw [stringService.Truncate, if_neg h, if_pos hb]

/-- C8, witness: the truncate adapter at (s = "a", l = 1). -/
theorem adapters_return_envelopes_witness :
    ∃ r, makeTruncateEndpoint ⟨['a'], 1⟩ = .returned r none ∧
      (((['a'] : GoStr) = [] ∧ r.v = [] ∧ r.err = "empty string") ∨
        ((['a'] : GoStr) ≠ [] ∧
          stringService.Truncate ['a'] 1 = .returned r.v none ∧
          r.err = "")) :=
  adapters_return_envelopes.2.2.2 ⟨['a'], 1⟩ (Or.inr (by decide))

/-- C9: for every non-empty string s and integer l with 0 <= l <= len(s),
Truncate(s, l) succeeds with a value of byte length exactly l which, followed
by the remaining byte suffix of s, reconstitutes s. -/
theorem truncate_prefix_decomposition (s : GoStr) (l : Int) (hs : s ≠ [])
    (h0 : 0 ≤ l) (hl : l ≤ (golen s : Int)) :
    ∃ v, stringService.Truncate s l = .returned v none ∧
      v.length = l.toNat ∧ v ++ (utf8Bytes s).drop l.toNat = utf8Bytes s := by
  refine ⟨(utf8Bytes s).take l.toNat, ?_, ?_, List.take_append_drop _ _⟩
  · rw [stringService.Truncate, if_neg hs, if_pos ⟨h0, hl⟩]
  · have h2 : l.toNat ≤ golen s := Int.toNat_le.mpr hl
    rw [golen] at h2
    rw [List.length_take]
    omega

/-- C9, witness at s = "ab", l = 1. -/
theorem truncate_prefix_decomposition_witness :
    ∃ v, stringService.Truncate ['a','b'] 1 = .returned v none ∧
      v.length = (1 : Int).toNat ∧
      v ++ (utf8Bytes ['a','b']).drop (1 : Int).toNat = utf8Bytes ['a','b'] :=
  truncate_prefix_decomposition ['a','b'] 1 (by decide) (by decide) (by decide)

/-- C10: for all strings a and b, Count(a ++ b) = Count(a) + Count(b):
Count is a monoid homomorphism from concatenation to addition. -/
theorem count_additive (a b : GoStr) :
    stringService.Count (a ++ b) = stringService.Count a + stringService.Count b := by
  rw [stringService.Count, stringService.Count, stringService.Count, golen_append]
  push_cast
  ring
